import Mathlib

/-
Verification of the bimdp message-routing and training-control layer of the
mdp-toolkit repository.  The repository ships the test files
src/bimdp/test/test_binode.py and src/bimdp/test/test_parallelbihinet.py
together with the package module docstrings; the implementation modules
(binode.py, biflow.py, bihinet, parallel, testnodes.py) are not part of the
checkout, so the operational definitions below are modelled from the
specification (spec.md) and pinned down by the assertions of the shipped
tests wherever those speak.
-/

namespace bimdp

/-- Values carried in a message: the Python dict values used by the tests
(None, ints, strings, booleans and opaque numeric arrays). -/
inductive Val where
  | none
  | int (i : Int)
  | str (s : String)
  | bool (b : Bool)
  | arr (tag : String)
  deriving DecidableEq

/-- A message is a flat string-keyed mapping, modelled as an association
list of key/value pairs. -/
abbrev Msg := List (String × Val)

/-- The reserved separator token between a unit identifier and the local
key name in an addressed message key (the NODE_ID_KEY of the source,
visible in the test key "clonelayer=>use_copies"). -/
def NODE_ID_KEY : String := "=>"

/-- Split a character list at the first occurrence of the two-character
separator; returns the part before and the part after it. -/
def splitSepChars : List Char → Option (List Char × List Char)
  | [] => Option.none
  | '=' :: '>' :: tail => Option.some ([], tail)
  | c :: rest => (splitSepChars rest).map (fun pr => (c :: pr.1, pr.2))

/-- Modelled from the spec: addressed keys have the shape id<SEP>k, split at
the first separator occurrence; a key without the separator is a plain
global key (binode.py is missing from the checkout). -/
def splitKey (k : String) : Option (String × String) :=
  (splitSepChars k.data).map (fun pr => (String.mk pr.1, String.mk pr.2))

/-- Is the key addressed to the given unit identifier? -/
def isSelfKey (uid k : String) : Bool :=
  match splitKey k with
  | Option.some (i, _) => i == uid
  | Option.none => false

/-- Is the key addressed to some other unit identifier? -/
def isOtherKey (uid k : String) : Bool :=
  match splitKey k with
  | Option.some (i, _) => !(i == uid)
  | Option.none => false

/-- The entries of the message addressed to the given unit, with the
identifier prefix stripped from their keys. -/
def selfPairs (uid : String) (msg : Msg) : Msg :=
  msg.filterMap (fun e =>
    match splitKey e.1 with
    | Option.some (i, r) => if i == uid then Option.some (r, e.2) else Option.none
    | Option.none => Option.none)

/-- Look a key up in a message (first matching entry). -/
def lookupVal (msg : Msg) (k : String) : Option Val :=
  (msg.find? (fun e => e.1 == k)).map (fun e => e.2)

/-- Modelled from the spec: a reserved key (method or target) is read from
the self-addressed entries first and otherwise from the plain global key of
that name. -/
def extractReserved (uid : String) (key : String) (msg : Msg) : Option Val :=
  match lookupVal (selfPairs uid msg) key with
  | Option.some v => Option.some v
  | Option.none => lookupVal msg key

/-- Modelled from the spec: a declared parameter is bound from a
self-addressed key of the same name if present, otherwise from the plain
global key of that name. -/
def bindParam (uid : String) (msg : Msg) (p : String) : Option Val :=
  match lookupVal (selfPairs uid msg) p with
  | Option.some v => Option.some v
  | Option.none => lookupVal msg p

/-- The keyword-argument view handed to the invoked unit method: every
parameter name is mapped to its bound value. -/
def argFn (uid : String) (msg : Msg) (p : String) : Val :=
  match bindParam uid msg p with
  | Option.some v => v
  | Option.none => Val.none

/-- A key is consumed by the current invocation when it is addressed to the
executing unit and its stripped name is a bound parameter or one of the
reserved names target and method. -/
def consumedKey (uid : String) (names : List String) (k : String) : Bool :=
  match splitKey k with
  | Option.some (i, r) =>
      i == uid && (names.contains r || r == "target" || r == "method")
  | Option.none => false

/-- The outer message after the consumed self-addressed keys are removed;
global keys and keys addressed to other units stay. -/
def remainingMsg (uid : String) (names : List String) (msg : Msg) : Msg :=
  msg.filter (fun e => !(consumedKey uid names e.1))

/-- The part of a message addressed to units other than the executing one. -/
def othersMsg (uid : String) (m : Msg) : Msg :=
  m.filter (fun e => isOtherKey uid e.1)

/-- The self-filtered view of a message: entries addressed to other units
are excluded, global and own entries stay. -/
def selfViewMsg (uid : String) (m : Msg) : Msg :=
  m.filter (fun e => !(isOtherKey uid e.1))

/-- Does the message contain an entry with the given key? -/
def containsKey (m : Msg) (k : String) : Bool :=
  m.any (fun e => e.1 == k)

/-- Merge a returned message delta into the outer message; on a key
collision the delta entry wins (the dict update of the source tests). -/
def mergeMsg (m delta : Msg) : Msg :=
  m.filter (fun e => !(containsKey delta e.1)) ++ delta

/-- Return value of a unit method, mirroring the Python conventions: a bare
output, an output with a message, or an output with an optional message and
an inline target. -/
inductive UnitRet where
  | out (y : Val)
  | outMsg (y : Val) (m : Msg)
  | outMsgTgt (y : Val) (m : Option Msg) (t : Val)

/-- The message delta carried by a unit return value. -/
def retDelta : UnitRet → Msg
  | UnitRet.out _ => []
  | UnitRet.outMsg _ m => m
  | UnitRet.outMsgTgt _ m _ => m.getD []

/-- The primary output carried by a unit return value. -/
def retOut : UnitRet → Val
  | UnitRet.out y => y
  | UnitRet.outMsg y _ => y
  | UnitRet.outMsgTgt y _ _ => y

/-- The inline target carried by a unit return value, if any. -/
def retTgt : UnitRet → Option Val
  | UnitRet.out _ => Option.none
  | UnitRet.outMsg _ _ => Option.none
  | UnitRet.outMsgTgt _ _ t => Option.some t

/-- One invokable operation of a unit: its declared parameter names (the
magic name msg included when declared) and its behaviour, a function of the
input, the bound keyword arguments and the message view. -/
structure MethodSpec where
  params : List String
  run : Val → (String → Val) → Msg → UnitRet

/-- Modelled from the spec: a processing unit seen by the router, with its
optional symbolic identifier and its named operations (binode.py is missing
from the checkout). -/
structure BiNode where
  node_id : String
  methods : String → Option MethodSpec

/-- Errors the router can signal. -/
inductive BiErr where
  | msgBinding (p : String)
  | unknownMethod (m : String)
  deriving DecidableEq

/-- Combined invocation result: the Python 1-, 2- or 3-tuple shapes. -/
inductive ExecResult where
  | r1 (y : Val)
  | r2 (y : Val) (m : Msg)
  | r3 (y : Val) (m : Msg) (t : Val)
  deriving DecidableEq

/-- The outgoing message of a combined result. -/
def ExecResult.msgOf : ExecResult → Msg
  | ExecResult.r1 _ => []
  | ExecResult.r2 _ m => m
  | ExecResult.r3 _ m _ => m

/-- The outgoing target of a combined result, if any. -/
def ExecResult.tgtOf : ExecResult → Option Val
  | ExecResult.r1 _ => Option.none
  | ExecResult.r2 _ _ => Option.none
  | ExecResult.r3 _ _ t => Option.some t

/-- The primary output of a combined result. -/
def ExecResult.outOf : ExecResult → Val
  | ExecResult.r1 y => y
  | ExecResult.r2 y _ => y
  | ExecResult.r3 y _ _ => y

/-- The name of the operation invoked for this step: the reserved method
key if it holds a string, the default execute operation otherwise. -/
def methodNameOf (uid : String) (msg : Msg) : String :=
  match extractReserved uid "method" msg with
  | Option.some (Val.str s) => s
  | _ => "execute"

/-- The parameter names bound from the message (the magic msg name is not
bound from keys). -/
def bindNamesOf (ms : MethodSpec) : List String :=
  ms.params.filter (fun p => !(p == "msg"))

/-- Modelled from the spec: the outgoing message of a combined result.  A
unit with the magic msg parameter has its returned message replace the
router view, which is then merged back with the entries addressed to other
units; otherwise the returned delta is merged into the remaining outer
message; with no returned message the remaining outer message passes
through. -/
def combineMsg (hasMsgArg : Bool) (others remaining : Msg) : UnitRet → Msg
  | UnitRet.out _ => remaining
  | UnitRet.outMsg _ d =>
      if hasMsgArg then others ++ d else mergeMsg remaining d
  | UnitRet.outMsgTgt _ dOpt _ =>
      match dOpt with
      | Option.none => remaining
      | Option.some d =>
          if hasMsgArg then others ++ d else mergeMsg remaining d

/-- Modelled from the spec: the outgoing target of a combined result.  An
explicit message-key target wins over an inline returned target; with
neither, an inverse invocation gets the default target -1 (previous
position). -/
def combineTgt (isInv : Bool) (msgTgt : Option Val) (ret : UnitRet) : Option Val :=
  match msgTgt with
  | Option.some t => Option.some t
  | Option.none =>
      match retTgt ret with
      | Option.some t => Option.some t
      | Option.none =>
          if isInv then Option.some (Val.int (-1)) else Option.none

/-- Modelled from the spec: combine the unit return value with the routed
message and the extracted reserved target into the 1-, 2- or 3-tuple shaped
invocation result. -/
def combineResult (isInv : Bool) (hasMsgArg : Bool) (others remaining : Msg)
    (msgTgt : Option Val) (ret : UnitRet) : ExecResult :=
  match combineTgt isInv msgTgt ret with
  | Option.some t =>
      ExecResult.r3 (retOut ret) (combineMsg hasMsgArg others remaining ret) t
  | Option.none =>
      if (combineMsg hasMsgArg others remaining ret).isEmpty then
        ExecResult.r1 (retOut ret)
      else ExecResult.r2 (retOut ret) (combineMsg hasMsgArg others remaining ret)

/-- Modelled from the spec: one routed invocation of a unit.  The reserved
target and method keys are extracted, the named operation is resolved, the
declared parameters are bound from self-addressed keys (stripped, removed
from the outer message) and from plain global keys (read, left in place,
as asserted by test_msg_parsing1), a missing required binding signals a
MessageBindingError, and the unit return value is combined back with the
outer message. -/
def BiNode.execute (node : BiNode) (x : Val) (msg : Msg) : Except BiErr ExecResult :=
  let uid := node.node_id
  let msgTgt := extractReserved uid "target" msg
  let mName := methodNameOf uid msg
  match node.methods mName with
  | Option.none => Except.error (BiErr.unknownMethod mName)
  | Option.some ms =>
      let names := bindNamesOf ms
      match names.filter (fun p => (bindParam uid msg p).isNone) with
      | q :: _ => Except.error (BiErr.msgBinding q)
      | [] =>
          let remaining := remainingMsg uid names msg
          let others := othersMsg uid remaining
          let hasMsgArg := ms.params.contains "msg"
          let view := if hasMsgArg then selfViewMsg uid remaining else []
          let ret := ms.run x (argFn uid msg) view
          Except.ok (combineResult (mName == "inverse") hasMsgArg others
            remaining msgTgt ret)

/-- The termination sentinel target value (the package docstring: the value
of EXIT_TARGET, which is currently just exit). -/
def EXIT_TARGET : String := "exit"

/-! Concrete units mirroring the test scenarios of test_binode.py. -/

/-- The execute operation of the unit of test_msg_parsing1: parameters a,
b, d, returning its input together with the message additions g and z. -/
def pMs1 : MethodSpec :=
  { params := ["a", "b", "d"],
    run := fun x _ _ => UnitRet.outMsg x [("g", Val.int 15), ("z", Val.int 3)] }

/-- The unit of test_msg_parsing1, identifier test. -/
def pNode1 : BiNode :=
  { node_id := "test",
    methods := fun s => if s = "execute" then Option.some pMs1 else Option.none }

/-- The message of test_msg_parsing1. -/
def pMsgT1 : Msg :=
  [("c", Val.int 12), ("test=>b", Val.int 42), ("a", Val.int 13),
   ("test=>d", Val.str "bla")]

/-- The message of test_msg_parsing1 extended with a key addressed to a
different unit identifier. -/
def pMsg1 : Msg := pMsgT1 ++ [("other=>q", Val.int 7)]

/-- The execute operation of the unit of test_msg_parsing2: parameters a
and b only, no return value. -/
def pMs2 : MethodSpec :=
  { params := ["a", "b"], run := fun _ _ _ => UnitRet.out Val.none }

/-- The unit of test_msg_parsing2, identifier test. -/
def pNode2 : BiNode :=
  { node_id := "test",
    methods := fun s => if s = "execute" then Option.some pMs2 else Option.none }

/-- An execute operation returning an inline target, for exercising the
precedence of the message-key target of test_target_magic. -/
def pMsTgt : MethodSpec :=
  { params := ["a", "b"],
    run := fun _ _ _ =>
      UnitRet.outMsgTgt Val.none Option.none (Val.str "inline") }

/-- The unit of test_target_magic (with an inline target added), identifier
test. -/
def pNodeTgt : BiNode :=
  { node_id := "test",
    methods := fun s => if s = "execute" then Option.some pMsTgt else Option.none }

/-- The message of test_target_magic: a self-addressed reserved target key
with value test2. -/
def pMsgTgt : Msg :=
  [("c", Val.int 12), ("test=>b", Val.int 42), ("a", Val.int 13),
   ("test=>target", Val.str "test2")]

/-- The inverse operation of the unit of test_inverse_magic1: parameters a
and b, returning only an output array. -/
def pMsInv : MethodSpec :=
  { params := ["a", "b"], run := fun _ _ _ => UnitRet.out (Val.arr "y") }

/-- The unit of test_inverse_magic1, identifier test, with the inverse
operation declared. -/
def pNodeInv : BiNode :=
  { node_id := "test",
    methods := fun s => if s = "inverse" then Option.some pMsInv else Option.none }

/-- The message of test_inverse_magic1: the reserved method key dispatches
to the inverse operation. -/
def pMsgInv : Msg :=
  [("c", Val.int 12), ("a", Val.int 13), ("test=>b", Val.int 42),
   ("method", Val.str "inverse")]

/-- The execute operation of the unit of test_msg_magic: parameters a, msg
and b; it deletes the key c from its message view, adds f = 1 and returns
the view as its message. -/
def pMsMsg : MethodSpec :=
  { params := ["a", "msg", "b"],
    run := fun x _ view =>
      UnitRet.outMsg x
        ((view.filter (fun e => !(e.1 == "c"))) ++ [("f", Val.int 1)]) }

/-- The unit of test_msg_magic, identifier test. -/
def pNodeMsg : BiNode :=
  { node_id := "test",
    methods := fun s => if s = "execute" then Option.some pMsMsg else Option.none }

/-- The message of test_msg_magic. -/
def pMsgMsg : Msg :=
  [("c", Val.int 12), ("test=>b", Val.int 42), ("a", Val.int 13)]

/-! The training-state model. -/

/-- Modelled from the spec: the training state of a trainable unit
(signal_node.py and binode.py are missing from the checkout): the number of
configured training phases, the configured per-phase stop-training
payloads, the number of completed phases and the accumulated training
statistics (the chunks seen so far). -/
structure TrainUnit (α : Type) where
  numPhases : Nat
  stop_result : List α
  phase : Nat
  chunks : List Val
  deriving DecidableEq

/-- A unit is training from construction until one stop-training call per
configured phase has been made. -/
def TrainUnit.is_training {α : Type} (u : TrainUnit α) : Bool :=
  decide (u.phase < u.numPhases)

/-- One training step: accumulate the chunk; the phase state is untouched. -/
def TrainUnit.train {α : Type} (u : TrainUnit α) (x : Val) : TrainUnit α :=
  { u with chunks := u.chunks ++ [x] }

/-- Modelled from the spec: the phase-completion operation returns the
payload for the current phase (the Nth call returns the Nth element of the
configured sequence) and advances the phase counter. -/
def TrainUnit.stop_training {α : Type} (u : TrainUnit α) :
    Option α × TrainUnit α :=
  (u.stop_result[u.phase]?, { u with phase := u.phase + 1 })

/-- Sequential training on a list of chunks. -/
def trainSeq {α : Type} (u : TrainUnit α) (xs : List Val) : TrainUnit α :=
  xs.foldl TrainUnit.train u

/-- Modelled from the spec: the parallel training scheduler forks one
worker copy per chunk list, trains every worker on its chunks, then joins
the workers accumulated statistics back into the single canonical
instance; no worker ever invokes phase completion. -/
def parallelTrainPhase {α : Type} (u : TrainUnit α)
    (chunks : List (List Val)) : TrainUnit α :=
  let workers := chunks.map (fun c => trainSeq { u with chunks := [] } c)
  { u with chunks := u.chunks ++ (workers.map (fun wk => wk.chunks)).flatten }

/-- Train one phase on its chunk lists: fanned out across workers when par
is true, sequentially on the concatenated data otherwise. -/
def phaseStep {α : Type} (par : Bool) (u : TrainUnit α)
    (chs : List (List Val)) : TrainUnit α :=
  if par then parallelTrainPhase u chs else trainSeq u chs.flatten

/-- Drive the given training phases: each phase trains its data via
phaseStep and then calls stop_training exactly once on the canonical unit,
collecting the phase-completion payloads. -/
def runPhases {α : Type} (par : Bool) (u : TrainUnit α) :
    List (List (List Val)) → List (Option α) × TrainUnit α
  | [] => ([], u)
  | chs :: rest =>
      let pr := (phaseStep par u chs).stop_training
      let done := runPhases par pr.2 rest
      (pr.1 :: done.1, done.2)

/-- Iterate the phase-completion operation k times. -/
def stopN {α : Type} (u : TrainUnit α) : Nat → TrainUnit α
  | 0 => u
  | k+1 => ((stopN u k).stop_training).2

/-! The jump test unit. -/

/-- Modelled from the spec: the jump-capable test unit holds a configured
sequence of per-execution results and a loop counter (testnodes.py is
missing from the checkout). -/
structure JumpNode (α : Type) where
  execute_results : List (Option α)
  loop_counter : Nat

/-- A fresh jump unit with the given configured results. -/
def JumpNode.fresh {α : Type} (rs : List (Option α)) : JumpNode α :=
  { execute_results := rs, loop_counter := 0 }

/-- Modelled from the spec: one execution of the jump unit: it returns the
configured result for the current loop count, or its input unchanged as
the passthrough default when the configured entry is empty or the sequence
is exhausted; every execution increments the loop counter. -/
def JumpNode.jexecute {α : Type} (u : JumpNode α) (x : α) : JumpNode α × α :=
  let r := match u.execute_results[u.loop_counter]? with
    | Option.some (Option.some r) => r
    | _ => x
  ({ u with loop_counter := u.loop_counter + 1 }, r)

/-! The clone layer. -/

/-- Modelled from the spec: the clone layer broadcast state, with the
optional identifier used for message addressing and the shared-or-copies
mode flag (bihinet and parallel are missing from the checkout). -/
structure CloneBiLayer where
  node_id : String
  use_copies : Bool
  deriving DecidableEq

/-- Modelled from the spec: the clone layer reads the copy-mode control
flag from a key addressed to it through the ordinary message-addressing
mechanism; the shared-to-copies transition is one-directional, so the flag
can be raised but never lowered. -/
def CloneBiLayer.receiveMsg (layer : CloneBiLayer) (msg : Msg) : CloneBiLayer :=
  match lookupVal (selfPairs layer.node_id msg) "use_copies" with
  | Option.some (Val.bool b) => { layer with use_copies := layer.use_copies || b }
  | _ => layer

/-- Deliver a sequence of messages to the clone layer, one per flow step. -/
def runFlowMsgs (layer : CloneBiLayer) (msgs : List Msg) : CloneBiLayer :=
  msgs.foldl CloneBiLayer.receiveMsg layer

/-- Modelled from the spec: one training pass of a flow holding the clone
layer: the wrapped unit is trained on the data, its phase completes, and
its stop-training message is delivered to the clone layer through the
ordinary message-addressing mechanism. -/
def trainDeliverStop (u : TrainUnit (Msg × Val)) (layer : CloneBiLayer)
    (xs : List Val) : TrainUnit (Msg × Val) × CloneBiLayer :=
  let pr := (trainSeq u xs).stop_training
  match pr.1 with
  | Option.some (m, _) => (pr.2, layer.receiveMsg m)
  | Option.none => (pr.2, layer)

/-- A two-phase trainable unit with the stop payloads 1 and 2 (the shape of
test_stoptrain_result2 with the payloads abstracted to values). -/
def tUnit2 : TrainUnit Val :=
  { numPhases := 2, stop_result := [Val.int 1, Val.int 2], phase := 0,
    chunks := [] }

/-- The jump-unit configuration of the C8 scenario: target 0 on the first
two configured executions and the termination sentinel on the third. -/
def jumpCfg (y1 y2 y3 : Val) : JumpNode ExecResult :=
  JumpNode.fresh
    [Option.some (ExecResult.r3 y1 [] (Val.int 0)),
     Option.some (ExecResult.r3 y2 [] (Val.int 0)),
     Option.some (ExecResult.r3 y3 [] (Val.str EXIT_TARGET))]

/-- The wrapped unit of test_use_copies_msg: a single training phase whose
stop-training payload is the message raising the copy-mode flag of the
clone layer, addressed to it, with the layer as target. -/
def sfaStopUnit : TrainUnit (Msg × Val) :=
  { numPhases := 1,
    stop_result := [([("clonelayer=>use_copies", Val.bool true)],
                     Val.str "clonelayer")],
    phase := 0, chunks := [] }

/-- The clone layer of test_use_copies_msg, starting in shared mode. -/
def cloneLayer0 : CloneBiLayer := { node_id := "clonelayer", use_copies := false }

/-! Basic lemmas about the message operations. -/

theorem mem_of_lookupVal {msg : Msg} {k : String} {v : Val}
    (h : lookupVal msg k = Option.some v) : ∃ e ∈ msg, e.1 = k ∧ e.2 = v := by
  unfold lookupVal at h
  cases hf : msg.find? (fun e => e.1 == k) with
  | none => rw [hf] at h; cases h
  | some e =>
      rw [hf] at h
      have hp := List.find?_some hf
      refine ⟨e, List.mem_of_find?_eq_some hf, ?_, ?_⟩
      · exact eq_of_beq (by simpa using hp)
      · cases h; rfl

theorem containsKey_append (a b : Msg) (k : String) :
    containsKey (a ++ b) k = (containsKey a k || containsKey b k) := by
  simp [containsKey]

theorem containsKey_of_mem {m : Msg} {e : String × Val}
    (he : e ∈ m) (k : String) (hk : e.1 = k) : containsKey m k = true := by
  simp only [containsKey, List.any_eq_true]
  exact ⟨e, he, by simp [hk]⟩

theorem containsKey_filter_key (m : Msg) (f : String → Bool) (k : String)
    (hk : f k = true) :
    containsKey (m.filter (fun e => f e.1)) k = containsKey m k := by
  unfold containsKey
  rw [Bool.eq_iff_iff]
  simp only [List.any_eq_true, List.mem_filter]
  constructor
  · rintro ⟨e, ⟨he, _⟩, hek⟩
    exact ⟨e, he, hek⟩
  · rintro ⟨e, he, hek⟩
    refine ⟨e, ⟨he, ?_⟩, hek⟩
    have h1 : e.1 = k := eq_of_beq hek
    rw [h1]
    exact hk

theorem containsKey_filter_false (m : Msg) (f : String → Bool) (k : String)
    (hk : f k = false) :
    containsKey (m.filter (fun e => f e.1)) k = false := by
  unfold containsKey
  rw [Bool.eq_false_iff]
  intro hcon
  rw [List.any_eq_true] at hcon
  obtain ⟨e, hmem, hek⟩ := hcon
  have hef : f e.1 = true := by
    have h2 := (List.mem_filter.mp hmem).2
    simpa using h2
  have h1 : e.1 = k := eq_of_beq (by simpa using hek)
  rw [h1, hk] at hef
  exact Bool.noConfusion hef

theorem mergeMsg_nil (m : Msg) : mergeMsg m [] = m := by
  simp [mergeMsg, containsKey]

theorem containsKey_mergeMsg (m d : Msg) (k : String) :
    containsKey (mergeMsg m d) k = (containsKey m k || containsKey d k) := by
  unfold mergeMsg
  rw [containsKey_append]
  cases hd : containsKey d k with
  | true => simp
  | false =>
      have h1 : containsKey (m.filter (fun e => !(containsKey d e.1))) k
          = containsKey m k :=
        containsKey_filter_key m (fun k' => !(containsKey d k')) k (by simp [hd])
      rw [h1]

theorem mem_mergeMsg_left {m : Msg} {e : String × Val} (d : Msg)
    (he : e ∈ m) (hd : containsKey d e.1 = false) : e ∈ mergeMsg m d := by
  unfold mergeMsg
  exact List.mem_append_left _ (List.mem_filter.mpr ⟨he, by simp [hd]⟩)

theorem mem_remainingMsg {msg : Msg} {e : String × Val} (uid : String)
    (names : List String) (he : e ∈ msg)
    (hc : consumedKey uid names e.1 = false) :
    e ∈ remainingMsg uid names msg := by
  unfold remainingMsg
  exact List.mem_filter.mpr ⟨he, by simp [hc]⟩

theorem containsKey_remainingMsg_false (uid : String) (names : List String)
    (msg : Msg) (k : String) (h : consumedKey uid names k = true) :
    containsKey (remainingMsg uid names msg) k = false := by
  unfold remainingMsg
  exact containsKey_filter_false msg (fun k' => !(consumedKey uid names k')) k
    (by simp [h])

/-! Reduction lemmas for the routed invocation. -/

theorem extractReserved_of_selfLookup {uid key : String} {msg : Msg} {v : Val}
    (h : lookupVal (selfPairs uid msg) key = Option.some v) :
    extractReserved uid key msg = Option.some v := by
  unfold extractReserved
  rw [h]

theorem methodNameOf_default {uid : String} {msg : Msg}
    (h : extractReserved uid "method" msg = Option.none) :
    methodNameOf uid msg = "execute" := by
  unfold methodNameOf
  rw [h]

theorem bindNamesOf_of_noMsg {ms : MethodSpec} (h : ms.params.contains "msg" = false) :
    bindNamesOf ms = ms.params := by
  unfold bindNamesOf
  apply List.filter_eq_self.mpr
  intro a ha
  by_cases hm : a = "msg"
  · exfalso
    rw [hm] at ha
    have h2 : ms.params.contains "msg" = true := by
      unfold List.contains
      exact List.elem_eq_true_of_mem ha
    rw [h2] at h
    exact Bool.noConfusion h
  · simp [hm]

theorem execute_ok_eq (node : BiNode) (ms : MethodSpec) (x : Val) (msg : Msg)
    (hm : node.methods (methodNameOf node.node_id msg) = Option.some ms)
    (hmiss : (bindNamesOf ms).filter
      (fun p => (bindParam node.node_id msg p).isNone) = []) :
    node.execute x msg = Except.ok (combineResult
      (methodNameOf node.node_id msg == "inverse")
      (ms.params.contains "msg")
      (othersMsg node.node_id (remainingMsg node.node_id (bindNamesOf ms) msg))
      (remainingMsg node.node_id (bindNamesOf ms) msg)
      (extractReserved node.node_id "target" msg)
      (ms.run x (argFn node.node_id msg)
        (if ms.params.contains "msg" then
          selfViewMsg node.node_id (remainingMsg node.node_id (bindNamesOf ms) msg)
        else []))) := by
  simp only [BiNode.execute, hm, hmiss]

theorem execute_error_eq (node : BiNode) (ms : MethodSpec) (x : Val) (msg : Msg)
    (q : String) (rest : List String)
    (hm : node.methods (methodNameOf node.node_id msg) = Option.some ms)
    (hmiss : (bindNamesOf ms).filter
      (fun p => (bindParam node.node_id msg p).isNone) = q :: rest) :
    node.execute x msg = Except.error (BiErr.msgBinding q) := by
  simp only [BiNode.execute, hm, hmiss]

theorem msgOf_combineResult (i h : Bool) (o rem : Msg) (mt : Option Val)
    (ret : UnitRet) :
    ExecResult.msgOf (combineResult i h o rem mt ret) = combineMsg h o rem ret := by
  unfold combineResult
  cases combineTgt i mt ret with
  | some t => rfl
  | none =>
      by_cases he : (combineMsg h o rem ret).isEmpty = true
      · rw [if_pos he]
        simp only [ExecResult.msgOf]
        exact (List.isEmpty_iff.mp he).symm
      · rw [if_neg he]
        rfl

theorem combineResult_msgTgt (i h : Bool) (o rem : Msg) (ret : UnitRet) (t : Val) :
    combineResult i h o rem (Option.some t) ret
      = ExecResult.r3 (retOut ret) (combineMsg h o rem ret) t := rfl

theorem combineResult_inv_out (h : Bool) (o rem : Msg) (y : Val) :
    combineResult true h o rem Option.none (UnitRet.out y)
      = ExecResult.r3 y rem (Val.int (-1)) := rfl

theorem combineResult_inline_tgt (i h : Bool) (o rem : Msg) (y : Val)
    (mo : Option Msg) (t : Val) :
    combineResult i h o rem Option.none (UnitRet.outMsgTgt y mo t)
      = ExecResult.r3 y (combineMsg h o rem (UnitRet.outMsgTgt y mo t)) t := rfl

theorem contains_of_mem {l : List String} {a : String} (h : a ∈ l) :
    l.contains a = true := by
  unfold List.contains
  exact List.elem_eq_true_of_mem h

theorem containsKey_combineMsg_noMsg (o rem : Msg) (ret : UnitRet) (k : String) :
    containsKey (combineMsg false o rem ret) k
      = (containsKey rem k || containsKey (retDelta ret) k) := by
  cases ret with
  | out y => simp [combineMsg, retDelta, containsKey]
  | outMsg y d => simp [combineMsg, retDelta, containsKey_mergeMsg]
  | outMsgTgt y mo t =>
      cases mo with
      | none => simp [combineMsg, retDelta, containsKey]
      | some d => simp [combineMsg, retDelta, containsKey_mergeMsg]

theorem mem_combineMsg_noMsg {rem : Msg} {e : String × Val} (o : Msg)
    (ret : UnitRet) (he : e ∈ rem)
    (hd : containsKey (retDelta ret) e.1 = false) :
    e ∈ combineMsg false o rem ret := by
  cases ret with
  | out y => exact he
  | outMsg y d =>
      show e ∈ mergeMsg rem d
      exact mem_mergeMsg_left d he hd
  | outMsgTgt y mo t =>
      cases mo with
      | none => exact he
      | some d =>
          show e ∈ mergeMsg rem d
          exact mem_mergeMsg_left d he hd

theorem isOtherKey_consumed_false {uid k : String} (names : List String)
    (h : isOtherKey uid k = true) : consumedKey uid names k = false := by
  unfold isOtherKey at h
  unfold consumedKey
  cases hs : splitKey k with
  | none => rfl
  | some pr =>
      obtain ⟨i, r⟩ := pr
      rw [hs] at h
      simp only at h
      rw [Bool.not_eq_true'] at h
      simp [h]

theorem consumedKey_true_of_param {uid k p : String} {names : List String}
    (hs : splitKey k = Option.some (uid, p)) (hp : p ∈ names) :
    consumedKey uid names k = true := by
  unfold consumedKey
  rw [hs]
  simp
  exact Or.inl (Or.inl hp)

theorem containsKey_addressed_delta_false {d : Msg} {k : String}
    (hall : ∀ e ∈ d, splitKey e.1 = Option.none)
    (hk : splitKey k ≠ Option.none) : containsKey d k = false := by
  cases hc : containsKey d k with
  | false => rfl
  | true =>
      exfalso
      rw [containsKey, List.any_eq_true] at hc
      obtain ⟨e, he, hbe⟩ := hc
      have h1 : e.1 = k := eq_of_beq (by simpa using hbe)
      exact hk (h1 ▸ hall e he)

/-- C1: for a message holding a key addressed to the executing unit (its key
splits into the unit identifier and a parameter name p) and a plain global
key k naming another parameter, executing the unit binds the addressed
value to p and the global value to k; afterwards the addressed key is
absent from the outer message, while every entry whose key is addressed to
a different unit identifier is still present unchanged. -/
theorem C1_addressed_and_global_binding
    (node : BiNode) (ms : MethodSpec) (x : Val) (msg : Msg)
    (fullkey p k : String) (v w : Val)
    (hm : node.methods "execute" = Option.some ms)
    (hnm : extractReserved node.node_id "method" msg = Option.none)
    (hmsgp : ms.params.contains "msg" = false)
    (hp : p ∈ ms.params)
    (hfull : splitKey fullkey = Option.some (node.node_id, p))
    (hselfp : lookupVal (selfPairs node.node_id msg) p = Option.some v)
    (hk : k ∈ ms.params)
    (hselfk : lookupVal (selfPairs node.node_id msg) k = Option.none)
    (hglobk : lookupVal msg k = Option.some w)
    (hbound : ∀ q ∈ ms.params, (bindParam node.node_id msg q).isNone = false)
    (hdelta : ∀ e ∈ retDelta (ms.run x (argFn node.node_id msg) []),
      splitKey e.1 = Option.none) :
    argFn node.node_id msg p = v ∧
    argFn node.node_id msg k = w ∧
    ∃ res : ExecResult, node.execute x msg = Except.ok res ∧
      containsKey (ExecResult.msgOf res) fullkey = false ∧
      (∀ e ∈ msg, isOtherKey node.node_id e.1 = true →
        e ∈ ExecResult.msgOf res) := by
  have hmn : methodNameOf node.node_id msg = "execute" := methodNameOf_default hnm
  have hbn : bindNamesOf ms = ms.params := bindNamesOf_of_noMsg hmsgp
  have hbp : bindParam node.node_id msg p = Option.some v := by
    unfold bindParam
    rw [hselfp]
  have hbk : bindParam node.node_id msg k = Option.some w := by
    unfold bindParam
    rw [hselfk, hglobk]
  have hargp : argFn node.node_id msg p = v := by
    unfold argFn
    rw [hbp]
  have hargk : argFn node.node_id msg k = w := by
    unfold argFn
    rw [hbk]
  refine ⟨hargp, hargk, ?_⟩
  have hmiss : (bindNamesOf ms).filter
      (fun q => (bindParam node.node_id msg q).isNone) = [] := by
    rw [hbn]
    apply List.filter_eq_nil_iff.mpr
    intro a ha
    simp [hbound a ha]
  have hmex : node.methods (methodNameOf node.node_id msg) = Option.some ms := by
    rw [hmn]
    exact hm
  have hres := execute_ok_eq node ms x msg hmex hmiss
  rw [hbn, hmsgp, if_neg Bool.false_ne_true] at hres
  refine ⟨_, hres, ?_, ?_⟩
  · rw [msgOf_combineResult, containsKey_combineMsg_noMsg]
    have h1 : containsKey (remainingMsg node.node_id ms.params msg) fullkey
        = false :=
      containsKey_remainingMsg_false _ _ _ _
        (consumedKey_true_of_param hfull hp)
    have h2 : containsKey
        (retDelta (ms.run x (argFn node.node_id msg) [])) fullkey = false :=
      containsKey_addressed_delta_false hdelta (by rw [hfull]; intro hc; cases hc)
    rw [h1, h2]
    rfl
  · intro e he hoe
    rw [msgOf_combineResult]
    apply mem_combineMsg_noMsg
    · exact mem_remainingMsg _ _ he (isOtherKey_consumed_false _ hoe)
    · apply containsKey_addressed_delta_false hdelta
      unfold isOtherKey at hoe
      cases hs : splitKey e.1 with
      | none => rw [hs] at hoe; simp at hoe
      | some pr => simp

/-- Witness for C1: the unit and message of test_msg_parsing1, with an
extra key addressed to a different unit identifier. -/
theorem C1_addressed_and_global_binding_witness :
    argFn "test" pMsg1 "b" = Val.int 42 ∧
    argFn "test" pMsg1 "a" = Val.int 13 ∧
    ∃ res : ExecResult, pNode1.execute Val.none pMsg1 = Except.ok res ∧
      containsKey (ExecResult.msgOf res) "test=>b" = false ∧
      (∀ e ∈ pMsg1, isOtherKey "test" e.1 = true →
        e ∈ ExecResult.msgOf res) :=
  C1_addressed_and_global_binding pNode1 pMs1 Val.none pMsg1 "test=>b" "b" "a"
    (Val.int 42) (Val.int 13) rfl rfl (by decide) (by decide) (by decide) rfl
    (by decide) rfl rfl (by decide) (by decide)

/-- C2 counterexample: executing the unit of test_msg_parsing1 on its test
message binds the global key a (value 13) to the parameter a, yet the key a
is still present in the outgoing message afterwards (as the test itself
asserts), so a consumed global key is not removed from the outer message. -/
theorem C2_global_key_not_removed_counterexample :
    argFn "test" pMsgT1 "a" = Val.int 13 ∧
    pNode1.execute Val.none pMsgT1 = Except.ok (ExecResult.r2 Val.none
      [("c", Val.int 12), ("a", Val.int 13), ("g", Val.int 15),
       ("z", Val.int 3)]) ∧
    containsKey [("c", Val.int 12), ("a", Val.int 13), ("g", Val.int 15),
       ("z", Val.int 3)] "a" = true :=
  ⟨rfl, rfl, rfl⟩

/-- C2 (amended): a global message key whose name matches a bound parameter
of the executing unit is read for the binding but stays present in the
outer message after the unit executes; only self-addressed keys are
removed. -/
theorem C2_global_key_read_and_kept
    (node : BiNode) (ms : MethodSpec) (x : Val) (msg : Msg)
    (k : String) (w : Val)
    (hm : node.methods "execute" = Option.some ms)
    (hnm : extractReserved node.node_id "method" msg = Option.none)
    (hmsgp : ms.params.contains "msg" = false)
    (hk : k ∈ ms.params)
    (hkplain : splitKey k = Option.none)
    (hselfk : lookupVal (selfPairs node.node_id msg) k = Option.none)
    (hglobk : lookupVal msg k = Option.some w)
    (hbound : ∀ q ∈ ms.params, (bindParam node.node_id msg q).isNone = false) :
    argFn node.node_id msg k = w ∧
    ∃ res : ExecResult, node.execute x msg = Except.ok res ∧
      containsKey (ExecResult.msgOf res) k = true := by
  have hmn : methodNameOf node.node_id msg = "execute" := methodNameOf_default hnm
  have hbn : bindNamesOf ms = ms.params := bindNamesOf_of_noMsg hmsgp
  have hbk : bindParam node.node_id msg k = Option.some w := by
    unfold bindParam
    rw [hselfk, hglobk]
  have hargk : argFn node.node_id msg k = w := by
    unfold argFn
    rw [hbk]
  refine ⟨hargk, ?_⟩
  have hmiss : (bindNamesOf ms).filter
      (fun q => (bindParam node.node_id msg q).isNone) = [] := by
    rw [hbn]
    apply List.filter_eq_nil_iff.mpr
    intro a ha
    simp [hbound a ha]
  have hmex : node.methods (methodNameOf node.node_id msg) = Option.some ms := by
    rw [hmn]
    exact hm
  have hres := execute_ok_eq node ms x msg hmex hmiss
  rw [hbn, hmsgp, if_neg Bool.false_ne_true] at hres
  refine ⟨_, hres, ?_⟩
  rw [msgOf_combineResult, containsKey_combineMsg_noMsg]
  obtain ⟨e, he, hek, _⟩ := mem_of_lookupVal hglobk
  have hcons : consumedKey node.node_id ms.params e.1 = false := by
    unfold consumedKey
    rw [hek, hkplain]
  have h1 : containsKey (remainingMsg node.node_id ms.params msg) k = true :=
    containsKey_of_mem (mem_remainingMsg _ _ he hcons) k hek
  rw [h1]
  rfl

/-- Witness for C2 (amended) at the message of test_msg_parsing1. -/
theorem C2_global_key_read_and_kept_witness :
    argFn "test" pMsgT1 "a" = Val.int 13 ∧
    ∃ res : ExecResult, pNode1.execute Val.none pMsgT1 = Except.ok res ∧
      containsKey (ExecResult.msgOf res) "a" = true :=
  C2_global_key_read_and_kept pNode1 pMs1 Val.none pMsgT1 "a" (Val.int 13)
    rfl rfl (by decide) (by decide) (by decide) rfl rfl (by decide)

/-- C3: a message carrying a self-addressed reserved target key for the
executing unit makes the invocation result a 3-tuple whose third element
is that target value, whatever the unit itself returns: the explicit
message-key target takes precedence over any inline returned target. -/
theorem C3_message_target_wins
    (node : BiNode) (ms : MethodSpec) (x : Val) (msg : Msg) (t : Val)
    (hm : node.methods (methodNameOf node.node_id msg) = Option.some ms)
    (hselft : lookupVal (selfPairs node.node_id msg) "target" = Option.some t)
    (hmiss : (bindNamesOf ms).filter
      (fun p => (bindParam node.node_id msg p).isNone) = []) :
    ∃ y m, node.execute x msg = Except.ok (ExecResult.r3 y m t) := by
  have hext : extractReserved node.node_id "target" msg = Option.some t :=
    extractReserved_of_selfLookup hselft
  have hres := execute_ok_eq node ms x msg hm hmiss
  rw [hext, combineResult_msgTgt] at hres
  exact ⟨_, _, hres⟩

/-- Witness for C3: the message of test_target_magic against a unit that
even returns an inline target of its own; the message target test2 wins. -/
theorem C3_message_target_wins_witness :
    ∃ y m, pNodeTgt.execute Val.none pMsgTgt
      = Except.ok (ExecResult.r3 y m (Val.str "test2")) :=
  C3_message_target_wins pNodeTgt pMsTgt Val.none pMsgTgt (Val.str "test2")
    rfl rfl (by decide)

/-- C5: when the reserved method key dispatches to the inverse operation
and no message target is present, a unit returning only an output is given
the default target -1 (previous position), while a unit returning an
explicit 3-tuple with a target keeps that target and the inverse default
does not apply. -/
theorem C5_inverse_default_target
    (node : BiNode) (ms : MethodSpec) (x : Val) (msg : Msg)
    (hmth : extractReserved node.node_id "method" msg
      = Option.some (Val.str "inverse"))
    (hm : node.methods "inverse" = Option.some ms)
    (hmsgp : ms.params.contains "msg" = false)
    (htgt : extractReserved node.node_id "target" msg = Option.none)
    (hmiss : (bindNamesOf ms).filter
      (fun p => (bindParam node.node_id msg p).isNone) = []) :
    (∀ y, ms.run x (argFn node.node_id msg) [] = UnitRet.out y →
      node.execute x msg = Except.ok (ExecResult.r3 y
        (remainingMsg node.node_id (bindNamesOf ms) msg) (Val.int (-1)))) ∧
    (∀ y mo t, ms.run x (argFn node.node_id msg) []
        = UnitRet.outMsgTgt y mo t →
      ∃ m, node.execute x msg = Except.ok (ExecResult.r3 y m t)) := by
  have hmn : methodNameOf node.node_id msg = "inverse" := by
    unfold methodNameOf
    rw [hmth]
  have hmex : node.methods (methodNameOf node.node_id msg) = Option.some ms := by
    rw [hmn]
    exact hm
  have hb : (("inverse" : String) == "inverse") = true := by decide
  have hres := execute_ok_eq node ms x msg hmex hmiss
  rw [hmn, hb, htgt, hmsgp, if_neg Bool.false_ne_true] at hres
  constructor
  · intro y hy
    rw [hy, combineResult_inv_out] at hres
    exact hres
  · intro y mo t hy
    rw [hy, combineResult_inline_tgt] at hres
    exact ⟨_, hres⟩

/-- Witness for C5: the unit and message of test_inverse_magic1; the
inverse dispatch yields the default target -1. -/
theorem C5_inverse_default_target_witness :
    (∀ y, pMsInv.run Val.none (argFn "test" pMsgInv) [] = UnitRet.out y →
      pNodeInv.execute Val.none pMsgInv = Except.ok (ExecResult.r3 y
        (remainingMsg "test" (bindNamesOf pMsInv) pMsgInv) (Val.int (-1)))) ∧
    (∀ y mo t, pMsInv.run Val.none (argFn "test" pMsgInv) []
        = UnitRet.outMsgTgt y mo t →
      ∃ m, pNodeInv.execute Val.none pMsgInv
        = Except.ok (ExecResult.r3 y m t)) :=
  C5_inverse_default_target pNodeInv pMsInv Val.none pMsgInv rfl rfl
    (by decide) rfl (by decide)

/-- C6: a unit declaring the magic msg parameter receives the whole
remaining message with entries addressed to other units excluded (every
global entry is in the view, no other-addressed entry is), and the message
it returns replaces the router view: the outgoing message is exactly the
other-addressed entries together with the returned message, so keys the
unit dropped are absent afterwards and keys it added are present. -/
theorem C6_msg_magic_replaces_view
    (node : BiNode) (ms : MethodSpec) (x : Val) (msg : Msg) (y : Val) (d : Msg)
    (hm : node.methods "execute" = Option.some ms)
    (hnm : extractReserved node.node_id "method" msg = Option.none)
    (hmsgp : ms.params.contains "msg" = true)
    (hmiss : (bindNamesOf ms).filter
      (fun p => (bindParam node.node_id msg p).isNone) = [])
    (hrun : ms.run x (argFn node.node_id msg)
        (selfViewMsg node.node_id (remainingMsg node.node_id (bindNamesOf ms) msg))
      = UnitRet.outMsg y d) :
    (∀ e ∈ msg, splitKey e.1 = Option.none →
      e ∈ selfViewMsg node.node_id
        (remainingMsg node.node_id (bindNamesOf ms) msg)) ∧
    (∀ e ∈ msg, isOtherKey node.node_id e.1 = true →
      e ∉ selfViewMsg node.node_id
        (remainingMsg node.node_id (bindNamesOf ms) msg)) ∧
    ∃ res : ExecResult, node.execute x msg = Except.ok res ∧
      ExecResult.msgOf res
        = othersMsg node.node_id
            (remainingMsg node.node_id (bindNamesOf ms) msg) ++ d ∧
      (∀ k, containsKey (ExecResult.msgOf res) k
        = (containsKey (othersMsg node.node_id
            (remainingMsg node.node_id (bindNamesOf ms) msg)) k
           || containsKey d k)) := by
  have hmn : methodNameOf node.node_id msg = "execute" := methodNameOf_default hnm
  have hmex : node.methods (methodNameOf node.node_id msg) = Option.some ms := by
    rw [hmn]
    exact hm
  refine ⟨?_, ?_, ?_⟩
  · intro e he hpl
    have hcons : consumedKey node.node_id (bindNamesOf ms) e.1 = false := by
      unfold consumedKey
      rw [hpl]
    have hoth : isOtherKey node.node_id e.1 = false := by
      unfold isOtherKey
      rw [hpl]
    exact List.mem_filter.mpr
      ⟨mem_remainingMsg _ _ he hcons, by simp [hoth]⟩
  · intro e _ hoe hmem
    have h2 := (List.mem_filter.mp hmem).2
    rw [hoe] at h2
    exact Bool.noConfusion h2
  · have hres := execute_ok_eq node ms x msg hmex hmiss
    rw [hmsgp, if_pos rfl, hrun] at hres
    refine ⟨_, hres, ?_, ?_⟩
    · rw [msgOf_combineResult]
      rfl
    · intro k
      rw [msgOf_combineResult]
      show containsKey (othersMsg node.node_id
        (remainingMsg node.node_id (bindNamesOf ms) msg) ++ d) k = _
      exact containsKey_append _ _ _

/-- Witness for C6: the unit and message of test_msg_magic; the unit
deletes key c, adds key f, and the outgoing message is its returned view. -/
theorem C6_msg_magic_replaces_view_witness :
    (∀ e ∈ pMsgMsg, splitKey e.1 = Option.none →
      e ∈ selfViewMsg "test" (remainingMsg "test" (bindNamesOf pMsMsg) pMsgMsg)) ∧
    (∀ e ∈ pMsgMsg, isOtherKey "test" e.1 = true →
      e ∉ selfViewMsg "test" (remainingMsg "test" (bindNamesOf pMsMsg) pMsgMsg)) ∧
    ∃ res : ExecResult, pNodeMsg.execute Val.none pMsgMsg = Except.ok res ∧
      ExecResult.msgOf res
        = othersMsg "test" (remainingMsg "test" (bindNamesOf pMsMsg) pMsgMsg)
            ++ [("a", Val.int 13), ("f", Val.int 1)] ∧
      (∀ k, containsKey (ExecResult.msgOf res) k
        = (containsKey (othersMsg "test"
            (remainingMsg "test" (bindNamesOf pMsMsg) pMsgMsg)) k
           || containsKey [("a", Val.int 13), ("f", Val.int 1)] k)) :=
  C6_msg_magic_replaces_view pNodeMsg pMsMsg Val.none pMsgMsg Val.none
    [("a", Val.int 13), ("f", Val.int 1)] rfl rfl (by decide) (by decide) rfl

/-- C7: executing a unit signals a binding error exactly when some required
parameter of the invoked operation has neither a self-addressed nor a
global key binding; in particular an addressed key that no parameter ever
claims cannot make execution fail. -/
theorem C7_binding_error_iff
    (node : BiNode) (ms : MethodSpec) (x : Val) (msg : Msg)
    (hm : node.methods (methodNameOf node.node_id msg) = Option.some ms) :
    (∃ e, node.execute x msg = Except.error e)
      ↔ ∃ q ∈ bindNamesOf ms, bindParam node.node_id msg q = Option.none := by
  cases hmiss : (bindNamesOf ms).filter
      (fun p => (bindParam node.node_id msg p).isNone) with
  | nil =>
      constructor
      · rintro ⟨e, he⟩
        rw [execute_ok_eq node ms x msg hm hmiss] at he
        cases he
      · rintro ⟨q, hq, hnone⟩
        exfalso
        have hmem : q ∈ (bindNamesOf ms).filter
            (fun p => (bindParam node.node_id msg p).isNone) :=
          List.mem_filter.mpr ⟨hq, by simp [hnone]⟩
        rw [hmiss] at hmem
        cases hmem
  | cons q rest =>
      constructor
      · intro _
        have hqmem : q ∈ (bindNamesOf ms).filter
            (fun p => (bindParam node.node_id msg p).isNone) := by
          rw [hmiss]
          exact List.mem_cons_self q rest
        obtain ⟨hq, hn⟩ := List.mem_filter.mp hqmem
        exact ⟨q, hq, Option.isNone_iff_eq_none.mp (by simpa using hn)⟩
      · intro _
        exact ⟨BiErr.msgBinding q, execute_error_eq node ms x msg q rest hm hmiss⟩

/-- Witness for C7: the unit and message of test_msg_parsing2, where the
self-addressed key for the missing parameter d is silently dropped: both
sides of the equivalence are false, so execution does not fail. -/
theorem C7_binding_error_iff_witness :
    (∃ e, pNode2.execute Val.none pMsgT1 = Except.error e)
      ↔ ∃ q ∈ bindNamesOf pMs2, bindParam "test" pMsgT1 q = Option.none :=
  C7_binding_error_iff pNode2 pMs2 Val.none pMsgT1 rfl

/-! Lemmas about the training model. -/

theorem trainSeq_phase {α : Type} (xs : List Val) (u : TrainUnit α) :
    (trainSeq u xs).phase = u.phase := by
  induction xs generalizing u with
  | nil => rfl
  | cons x rest ih => exact ih (u.train x)

theorem trainSeq_stop_result {α : Type} (xs : List Val) (u : TrainUnit α) :
    (trainSeq u xs).stop_result = u.stop_result := by
  induction xs generalizing u with
  | nil => rfl
  | cons x rest ih => exact ih (u.train x)

theorem phaseStep_phase {α : Type} (par : Bool) (u : TrainUnit α)
    (chs : List (List Val)) : (phaseStep par u chs).phase = u.phase := by
  cases par with
  | false => exact trainSeq_phase _ _
  | true => rfl

theorem phaseStep_stop_result {α : Type} (par : Bool) (u : TrainUnit α)
    (chs : List (List Val)) :
    (phaseStep par u chs).stop_result = u.stop_result := by
  cases par with
  | false => exact trainSeq_stop_result _ _
  | true => rfl

theorem runPhases_fst {α : Type} (par : Bool) (u : TrainUnit α)
    (sched : List (List (List Val)))
    (h : u.phase + sched.length ≤ u.stop_result.length) :
    (runPhases par u sched).1
      = ((u.stop_result.drop u.phase).take sched.length).map Option.some := by
  induction sched generalizing u with
  | nil => simp [runPhases]
  | cons chs rest ih =>
      have hph : (phaseStep par u chs).phase = u.phase := phaseStep_phase par u chs
      have hsr : (phaseStep par u chs).stop_result = u.stop_result :=
        phaseStep_stop_result par u chs
      have hlen : (chs :: rest).length = rest.length + 1 := rfl
      have hlt : u.phase < u.stop_result.length := by
        rw [hlen] at h
        omega
      show ((phaseStep par u chs).stop_training.1
          :: (runPhases par (phaseStep par u chs).stop_training.2 rest).1)
        = ((u.stop_result.drop u.phase).take (chs :: rest).length).map Option.some
      have h1 : (phaseStep par u chs).stop_training.1
          = Option.some (u.stop_result[u.phase]) := by
        show (phaseStep par u chs).stop_result[(phaseStep par u chs).phase]? = _
        rw [hph, hsr]
        exact List.getElem?_eq_getElem hlt
      have hu2ph : (phaseStep par u chs).stop_training.2.phase = u.phase + 1 := by
        show (phaseStep par u chs).phase + 1 = u.phase + 1
        rw [hph]
      have hu2sr : (phaseStep par u chs).stop_training.2.stop_result
          = u.stop_result := hsr
      have ihx := ih (phaseStep par u chs).stop_training.2
        (by rw [hu2ph, hu2sr]; rw [hlen] at h; omega)
      rw [h1, ihx, hu2ph, hu2sr, hlen]
      rw [List.drop_eq_getElem_cons hlt]
      rfl

/-- C4: for a unit whose configured stop-result is a sequence of N
per-phase payloads, driving the N phases returns exactly the configured
payloads in order - the i-th stop_training call yields the i-th element -
whether or not the chunks of each phase were distributed across parallel
workers. -/
theorem C4_stop_training_returns_nth {α : Type} (par : Bool) (u : TrainUnit α)
    (sched : List (List (List Val)))
    (hp : u.phase = 0) (hlen : sched.length = u.stop_result.length) :
    (runPhases par u sched).1 = u.stop_result.map Option.some := by
  have h := runPhases_fst par u sched (by rw [hp, hlen]; omega)
  rw [h, hp, List.drop_zero, hlen, List.take_length]

/-- Witness for C4: the two-phase unit with payloads 1 and 2, trained with
parallel chunk distribution. -/
theorem C4_stop_training_returns_nth_witness :
    (runPhases true tUnit2
      [[[Val.int 10], [Val.int 11]], [[Val.int 12]]]).1
      = tUnit2.stop_result.map Option.some :=
  C4_stop_training_returns_nth true tUnit2
    [[[Val.int 10], [Val.int 11]], [[Val.int 12]]] rfl rfl

/-! The training-state invariant. -/

theorem stopN_phase {α : Type} (u : TrainUnit α) (k : Nat) :
    (stopN u k).phase = u.phase + k := by
  induction k with
  | zero => rfl
  | succ n ih =>
      show (stopN u n).phase + 1 = u.phase + (n + 1)
      rw [ih]
      omega

theorem stopN_numPhases {α : Type} (u : TrainUnit α) (k : Nat) :
    (stopN u k).numPhases = u.numPhases := by
  induction k with
  | zero => rfl
  | succ n ih => exact ih

/-- C10: a trainable unit is training from construction, every train call
leaves the training state unchanged, and after k stop_training calls the
unit is still training exactly when k is below the configured number of
phases: a single-phase unit stops training after its first stop_training
call, an N-phase unit only after the N-th. -/
theorem C10_is_training_invariant {α : Type} (u : TrainUnit α)
    (hN : 1 ≤ u.numPhases) (hp : u.phase = 0) :
    u.is_training = true ∧
    (∀ x, (u.train x).is_training = u.is_training) ∧
    (∀ k : Nat, (stopN u k).is_training = decide (k < u.numPhases)) := by
  refine ⟨?_, fun x => rfl, ?_⟩
  · unfold TrainUnit.is_training
    rw [hp]
    exact decide_eq_true hN
  · intro k
    unfold TrainUnit.is_training
    rw [stopN_phase, stopN_numPhases, hp, Nat.zero_add]

/-- Witness for C10 at the two-phase unit. -/
theorem C10_is_training_invariant_witness :
    tUnit2.is_training = true ∧
    (∀ x, (tUnit2.train x).is_training = tUnit2.is_training) ∧
    (∀ k : Nat, (stopN tUnit2 k).is_training
      = decide (k < tUnit2.numPhases)) :=
  C10_is_training_invariant tUnit2 (by decide) rfl

/-- C8: the jump unit configured with target 0 on two of its three
execution results and the termination sentinel on the third returns those
results on the first three executions; the fourth execution, the sequence
being exhausted, returns its input unchanged as the passthrough default,
and the loop counter then equals 4. -/
theorem C8_jump_loop_counter_and_passthrough
    (y1 y2 y3 : Val) (x1 x2 x3 x4 : ExecResult) :
    ((jumpCfg y1 y2 y3).jexecute x1).2 = ExecResult.r3 y1 [] (Val.int 0) ∧
    (((jumpCfg y1 y2 y3).jexecute x1).1.jexecute x2).2
      = ExecResult.r3 y2 [] (Val.int 0) ∧
    ((((jumpCfg y1 y2 y3).jexecute x1).1.jexecute x2).1.jexecute x3).2
      = ExecResult.r3 y3 [] (Val.str EXIT_TARGET) ∧
    (((((jumpCfg y1 y2 y3).jexecute x1).1.jexecute x2).1.jexecute
        x3).1.jexecute x4).2 = x4 ∧
    (((((jumpCfg y1 y2 y3).jexecute x1).1.jexecute x2).1.jexecute
        x3).1.jexecute x4).1.loop_counter = 4 :=
  ⟨rfl, rfl, rfl, rfl, rfl⟩

/-! The clone layer flag. -/

theorem receiveMsg_sticky (l : CloneBiLayer) (m : Msg)
    (h : l.use_copies = true) : (l.receiveMsg m).use_copies = true := by
  unfold CloneBiLayer.receiveMsg
  cases hl : lookupVal (selfPairs l.node_id m) "use_copies" with
  | none => exact h
  | some v =>
      cases v with
      | bool b =>
          show (l.use_copies || b) = true
          rw [h]
          rfl
      | none => exact h
      | int i => exact h
      | str s => exact h
      | arr t => exact h

theorem runFlowMsgs_sticky (msgs : List Msg) (l : CloneBiLayer)
    (h : l.use_copies = true) : (runFlowMsgs l msgs).use_copies = true := by
  induction msgs generalizing l with
  | nil => exact h
  | cons m rest ih => exact ih _ (receiveMsg_sticky l m h)

/-- C9: training the flow delivers the wrapped units stop-training message
to the clone layer through the ordinary addressed-key mechanism; when that
message carries a self-addressed use_copies = true flag the layer ends in
copy mode, the transition is one-directional (no later message can lower
the flag), and every further sequence of delivered messages leaves the
layer in copy mode. -/
theorem C9_use_copies_set_and_sticky
    (u : TrainUnit (Msg × Val)) (layer : CloneBiLayer) (xs : List Val)
    (sm : Msg) (t : Val)
    (hstop : u.stop_result[u.phase]? = Option.some (sm, t))
    (hflag : lookupVal (selfPairs layer.node_id sm) "use_copies"
      = Option.some (Val.bool true)) :
    ((trainDeliverStop u layer xs).2).use_copies = true ∧
    (∀ l : CloneBiLayer, l.use_copies = true →
      ∀ m, (l.receiveMsg m).use_copies = true) ∧
    (∀ msgs, (runFlowMsgs (trainDeliverStop u layer xs).2 msgs).use_copies
      = true) := by
  have hfst : (trainSeq u xs).stop_training.1 = Option.some (sm, t) := by
    show (trainSeq u xs).stop_result[(trainSeq u xs).phase]? = _
    rw [trainSeq_stop_result, trainSeq_phase]
    exact hstop
  have hdeliver : (trainDeliverStop u layer xs).2 = layer.receiveMsg sm := by
    unfold trainDeliverStop
    simp only [hfst]
  have hcopies : (layer.receiveMsg sm).use_copies = true := by
    unfold CloneBiLayer.receiveMsg
    rw [hflag]
    show (layer.use_copies || true) = true
    rw [Bool.or_true]
  exact ⟨by rw [hdeliver]; exact hcopies,
    fun l hl m => receiveMsg_sticky l m hl,
    fun msgs => by rw [hdeliver]; exact runFlowMsgs_sticky msgs _ hcopies⟩

/-- Witness for C9: the clone layer and wrapped unit of
test_use_copies_msg. -/
theorem C9_use_copies_set_and_sticky_witness :
    ((trainDeliverStop sfaStopUnit cloneLayer0 [Val.arr "x"]).2).use_copies
      = true ∧
    (∀ l : CloneBiLayer, l.use_copies = true →
      ∀ m, (l.receiveMsg m).use_copies = true) ∧
    (∀ msgs, (runFlowMsgs
      (trainDeliverStop sfaStopUnit cloneLayer0 [Val.arr "x"]).2
      msgs).use_copies = true) :=
  C9_use_copies_set_and_sticky sfaStopUnit cloneLayer0 [Val.arr "x"]
    [("clonelayer=>use_copies", Val.bool true)] (Val.str "clonelayer")
    rfl rfl

end bimdp
